import Mathlib

/-!
Shallow embedding of `src/statistics.py` (a port of Python 3.4's statistics
module to Python 2/3).  Numeric data is modelled as lists of rationals `ℚ`
(the module is documented to work with exact numeric types such as
`fractions.Fraction`); `StatisticsError` is modelled as the `Except.error`
branch of `Except String`, carrying the exact message the code raises.
-/

namespace Stats

/-- Embedding of `mean(data)` (src/statistics.py lines 58-82):
if `len(data) < 1` raise `StatisticsError`, else return `sum(data) / len(data)`.
(The `iter(data) is data` materialization step is a no-op for lists.) -/
def mean (data : List ℚ) : Except String ℚ :=
  if data.length < 1 then .error "mean requires at least one data point"
  else .ok (data.sum / (data.length : ℚ))

/-- Embedding of `median(data)` (src/statistics.py lines 85-104):
`data = sorted(data)` (ascending), error on empty input, middle element for
odd length, average of the two middle elements for even length. -/
def median (data : List ℚ) : Except String ℚ :=
  let d := List.insertionSort (· ≤ ·) data
  let n := d.length
  if n = 0 then .error "no median for empty data"
  else if n % 2 = 1 then .ok (d.getD (n / 2) 0)
  else .ok ((d.getD (n / 2 - 1) 0 + d.getD (n / 2) 0) / 2)

/-- Distinct values of a list in order of first appearance: the key order of
`collections.Counter(iter(data))` (dict insertion order). -/
def firstKeys : List ℚ → List ℚ
  | [] => []
  | x :: xs => x :: firstKeys (xs.filter fun y => decide (y ≠ x))
termination_by l => l.length
decreasing_by
  simp only [List.length_cons]
  exact Nat.lt_succ_of_le (List.length_filter_le _ _)

/-- The items of `collections.Counter(iter(data))`: each distinct value in
first-appearance order, paired with its number of occurrences. -/
def counterItems (data : List ℚ) : List (ℚ × ℕ) :=
  (firstKeys data).map fun v => (v, data.count v)

/-- Comparison used by `Counter.most_common()`:
`sorted(items, key=itemgetter(1), reverse=True)` orders pairs by descending
count; the sort is stable. -/
def countGE (p q : ℚ × ℕ) : Prop := q.2 ≤ p.2

instance : DecidableRel countGE := fun p q => Nat.decLe q.2 p.2

instance : IsTotal (ℚ × ℕ) countGE := ⟨fun p q => Nat.le_total q.2 p.2⟩

instance : IsTrans (ℚ × ℕ) countGE := ⟨fun _ _ _ h1 h2 => Nat.le_trans h2 h1⟩

/-- Embedding of `collections.Counter(iter(data)).most_common()`: the counter
items stably sorted by descending count (insertion sort with `countGE` places
an earlier item before later items of equal count, as Python's stable sort
does). -/
def most_common (data : List ℚ) : List (ℚ × ℕ) :=
  List.insertionSort countGE (counterItems data)

/-- Embedding of the truncation loop of `_counts` (src/statistics.py lines
119-123): `maxfreq = table[0][1]`, then cut the table at the first index whose
count differs from `maxfreq` — i.e. keep the head and the longest prefix of
the tail whose counts equal the head's count. -/
def truncTable : List (ℚ × ℕ) → List (ℚ × ℕ)
  | [] => []
  | p :: rest => p :: rest.takeWhile fun q => decide (q.2 = p.2)

/-- Embedding of `_counts(data)` (src/statistics.py lines 107-124). -/
def _counts (data : List ℚ) : List (ℚ × ℕ) :=
  truncTable (most_common data)

/-- Embedding of `mode(data)` (src/statistics.py lines 127-148). -/
def mode (data : List ℚ) : Except String ℚ :=
  if data.length = 0 then .error "no mode for empty data"
  else
    let table := _counts data
    if table.length ≠ 1 then
      .error ("no unique mode; found " ++ toString table.length ++
        " equally common values")
    else .ok (table.headD (0, 0)).1

/-- Embedding of `_ss(data, data_mean=None)` (src/statistics.py lines
151-167): when no mean is supplied compute `mean(data)` (propagating its
error), then return `sum((x - data_mean)**2 for x in data)`. -/
def _ss (data : List ℚ) (data_mean : Option ℚ) : Except String ℚ :=
  (match data_mean with
    | none => mean data
    | some m => Except.ok m).map
    fun m => (data.map fun x => (x - m) ^ 2).sum

/-- Embedding of `variance(data, xbar=None)` (src/statistics.py lines
170-196): error when `len(data) < 2`, else `_ss(data, xbar) / (len(data) - 1)`. -/
def variance (data : List ℚ) (xbar : Option ℚ) : Except String ℚ :=
  if data.length < 2 then .error "variance requires at least two data points"
  else (_ss data xbar).map fun s => s / ((data.length - 1 : ℕ) : ℚ)

/-- Embedding of `pvariance(data, mux=None)` (src/statistics.py lines
199-225): error when `len(data) < 1`, else `_ss(data, mux) / len(data)`. -/
def pvariance (data : List ℚ) (mux : Option ℚ) : Except String ℚ :=
  if data.length < 1 then .error "pvariance requires at least one data point"
  else (_ss data mux).map fun s => s / (data.length : ℚ)

/-- Embedding of `stdev(data, xbar=None)` (src/statistics.py lines 228-234):
`math.sqrt(variance(data, xbar))`, with the real square root standing for the
floating-point one. -/
noncomputable def stdev (data : List ℚ) (xbar : Option ℚ) : Except String ℝ :=
  (variance data xbar).map fun v => Real.sqrt (v : ℝ)

/-- Embedding of `pstdev(data, mux=None)` (src/statistics.py lines 237-243):
`math.sqrt(pvariance(data, mux))`. -/
noncomputable def pstdev (data : List ℚ) (mux : Option ℚ) : Except String ℝ :=
  (pvariance data mux).map fun v => Real.sqrt (v : ℝ)

/-- Specification-side quantity: the highest frequency of any value of
`data` (`0` for empty `data`). -/
def maxCount (data : List ℚ) : ℕ :=
  (data.map fun v => data.count v).foldr max 0

/-- Specification-side quantity: the values whose frequency ties for the
maximum, in order of first appearance in `data`. -/
def tiedValues (data : List ℚ) : List ℚ :=
  (firstKeys data).filter fun v => decide (data.count v = maxCount data)

theorem mem_firstKeys {v : ℚ} : ∀ {l : List ℚ}, v ∈ firstKeys l ↔ v ∈ l := by
  intro l
  induction l using firstKeys.induct with
  | case1 => simp [firstKeys]
  | case2 x xs ih =>
    rw [firstKeys]
    simp only [List.mem_cons, ih, List.mem_filter, decide_eq_true_eq]
    constructor
    · rintro (rfl | ⟨h, _⟩)
      · exact Or.inl rfl
      · exact Or.inr h
    · rintro (rfl | h)
      · exact Or.inl rfl
      · by_cases hx : v = x
        · exact Or.inl hx
        · exact Or.inr ⟨h, hx⟩

theorem nodup_firstKeys : ∀ (l : List ℚ), (firstKeys l).Nodup := by
  intro l
  induction l using firstKeys.induct with
  | case1 => simp [firstKeys]
  | case2 x xs ih =>
    rw [firstKeys]
    refine List.nodup_cons.2 ⟨?_, ih⟩
    intro hmem
    have := mem_firstKeys.1 hmem
    simp at this

theorem le_foldr_max {a : ℕ} : ∀ {l : List ℕ}, a ∈ l → a ≤ l.foldr max 0
  | b :: t, h => by
    rcases List.mem_cons.1 h with rfl | h
    · exact le_max_left _ _
    · exact le_trans (le_foldr_max h) (le_max_right _ _)

theorem foldr_max_le {b : ℕ} : ∀ {l : List ℕ}, (∀ a ∈ l, a ≤ b) → l.foldr max 0 ≤ b
  | [], _ => Nat.zero_le b
  | c :: t, h => by
    simp only [List.foldr_cons, max_le_iff]
    exact ⟨h c (List.mem_cons_self _ _), foldr_max_le fun a ha => h a (List.mem_cons_of_mem _ ha)⟩

theorem foldr_max_mem : ∀ (l : List ℕ), l.foldr max 0 ∈ l ∨ l.foldr max 0 = 0
  | [] => Or.inr rfl
  | b :: t => by
    simp only [List.foldr_cons]
    rcases le_total (t.foldr max 0) b with h | h
    · rw [max_eq_left h]; exact Or.inl (List.mem_cons_self _ _)
    · rw [max_eq_right h]
      rcases foldr_max_mem t with ht | ht
      · exact Or.inl (List.mem_cons_of_mem _ ht)
      · exact Or.inr ht

theorem count_le_maxCount {data : List ℚ} {v : ℚ} (h : v ∈ data) :
    data.count v ≤ maxCount data :=
  le_foldr_max (List.mem_map.2 ⟨v, h, rfl⟩)

theorem maxCount_attained {data : List ℚ} (h : data ≠ []) :
    ∃ v ∈ data, data.count v = maxCount data := by
  rcases foldr_max_mem (data.map fun v => data.count v) with hm | hm
  · rcases List.mem_map.1 hm with ⟨v, hv, hc⟩
    exact ⟨v, hv, hc⟩
  · rcases List.exists_mem_of_ne_nil data h with ⟨v, hv⟩
    have h1 : 1 ≤ data.count v := List.count_pos_iff.2 hv
    have h2 := count_le_maxCount hv
    rw [maxCount] at *
    omega


/-- Helper: the largest count in a frequency table. -/
def maxSnd (l : List (ℚ × ℕ)) : ℕ := (l.map Prod.snd).foldr max 0

theorem maxSnd_perm {l1 l2 : List (ℚ × ℕ)} (h : l1.Perm l2) : maxSnd l1 = maxSnd l2 :=
  le_antisymm (foldr_max_le fun _ ha => le_foldr_max ((h.map Prod.snd).mem_iff.1 ha))
    (foldr_max_le fun _ ha => le_foldr_max ((h.map Prod.snd).mem_iff.2 ha))

theorem takeWhile_eq_filter_of_sorted {M : ℕ} :
    ∀ {t : List (ℚ × ℕ)}, t.Sorted countGE → (∀ q ∈ t, q.2 ≤ M) →
      (t.takeWhile fun q => decide (q.2 = M)) = t.filter fun q => decide (q.2 = M) := by
  intro t
  induction t with
  | nil => intro _ _; rfl
  | cons q u ih =>
    intro hs hle
    by_cases hq : q.2 = M
    · rw [List.takeWhile_cons_of_pos (by simp [hq]), List.filter_cons_of_pos (by simp [hq])]
      rw [ih hs.of_cons fun z hz => hle z (List.mem_cons_of_mem _ hz)]
    · rw [List.takeWhile_cons_of_neg (by simp [hq]), List.filter_cons_of_neg (by simp [hq])]
      symm
      apply List.filter_eq_nil_iff.2
      intro z hz
      have h1 : z.2 ≤ q.2 := List.rel_of_sorted_cons hs z hz
      have h2 : q.2 ≤ M := hle q (List.mem_cons_self _ _)
      simp only [decide_eq_true_eq]
      omega

theorem truncTable_eq_filter {s : List (ℚ × ℕ)} (hs : s.Sorted countGE) :
    truncTable s = s.filter fun q => decide (q.2 = maxSnd s) := by
  cases s with
  | nil => rfl
  | cons p t =>
    have hpt : ∀ q ∈ t, q.2 ≤ p.2 := fun q hq => List.rel_of_sorted_cons hs q hq
    have hmax : maxSnd (p :: t) = p.2 := by
      simp only [maxSnd, List.map_cons, List.foldr_cons]
      refine max_eq_left (foldr_max_le fun a ha => ?_)
      rcases List.mem_map.1 ha with ⟨q, hq, rfl⟩
      exact hpt q hq
    rw [hmax, truncTable, List.filter_cons_of_pos (by simp)]
    rw [takeWhile_eq_filter_of_sorted hs.of_cons hpt]

theorem orderedInsert_eq_cons {x : ℚ × ℕ} {s : List (ℚ × ℕ)}
    (h : ∀ z ∈ s, countGE x z) : s.orderedInsert countGE x = x :: s := by
  cases s with
  | nil => rfl
  | cons q qs => exact List.orderedInsert_of_le _ qs (h q (List.mem_cons_self _ _))

theorem filter_orderedInsert (p : ℚ × ℕ → Bool) (x : ℚ × ℕ) :
    ∀ {s : List (ℚ × ℕ)}, s.Sorted countGE →
      (s.orderedInsert countGE x).filter p =
        if p x then (s.filter p).orderedInsert countGE x else s.filter p := by
  intro s
  induction s with
  | nil =>
    intro _
    cases hpx : p x <;> simp [List.orderedInsert, List.filter, hpx]
  | cons q qs ih =>
    intro hs
    by_cases hxq : countGE x q
    · rw [List.orderedInsert_of_le _ qs hxq]
      cases hpx : p x with
      | true =>
        rw [if_pos rfl, List.filter_cons_of_pos hpx]
        symm
        apply orderedInsert_eq_cons
        intro z hz
        rcases List.mem_cons.1 (List.mem_of_mem_filter hz) with rfl | hz2
        · exact hxq
        · exact Nat.le_trans (List.rel_of_sorted_cons hs z hz2) hxq
      | false =>
        rw [if_neg (by simp), List.filter_cons_of_neg (by simp [hpx])]
    · have hstep : (q :: qs).orderedInsert countGE x = q :: qs.orderedInsert countGE x := by
        simp [List.orderedInsert, hxq]
      rw [hstep]
      have ih2 := ih hs.of_cons
      cases hpx : p x <;> cases hpq : p q <;>
        simp [List.filter_cons, hpx, hpq, ih2, List.orderedInsert, hxq]

theorem filter_insertionSort (p : ℚ × ℕ → Bool) :
    ∀ (l : List (ℚ × ℕ)),
      (List.insertionSort countGE l).filter p = List.insertionSort countGE (l.filter p)
  | [] => rfl
  | x :: l => by
    rw [show List.insertionSort countGE (x :: l)
        = (List.insertionSort countGE l).orderedInsert countGE x from rfl]
    rw [filter_orderedInsert p x (List.sorted_insertionSort countGE l)]
    rw [filter_insertionSort p l, List.filter_cons]
    cases hpx : p x <;> simp

theorem insertionSort_eq_self {M : ℕ} {l : List (ℚ × ℕ)} (h : ∀ q ∈ l, q.2 = M) :
    List.insertionSort countGE l = l := by
  apply List.Sorted.insertionSort_eq
  apply List.pairwise_of_forall_mem_list
  intro a ha b hb
  show b.2 ≤ a.2
  rw [h a ha, h b hb]

theorem maxSnd_counterItems (data : List ℚ) : maxSnd (counterItems data) = maxCount data := by
  apply le_antisymm
  · apply foldr_max_le
    intro a ha
    rcases List.mem_map.1 ha with ⟨q, hq, rfl⟩
    rcases List.mem_map.1 hq with ⟨v, hv, rfl⟩
    exact count_le_maxCount (mem_firstKeys.1 hv)
  · apply foldr_max_le
    intro a ha
    rcases List.mem_map.1 ha with ⟨v, hv, rfl⟩
    apply le_foldr_max
    apply List.mem_map.2
    exact ⟨(v, data.count v), List.mem_map.2 ⟨v, mem_firstKeys.2 hv, rfl⟩, rfl⟩

theorem counts_eq_map_tied (data : List ℚ) :
    _counts data = (tiedValues data).map fun v => (v, data.count v) := by
  rw [_counts, most_common,
    truncTable_eq_filter (List.sorted_insertionSort countGE (counterItems data)),
    maxSnd_perm (List.perm_insertionSort countGE (counterItems data)), maxSnd_counterItems,
    filter_insertionSort]
  rw [counterItems, List.filter_map]
  have hsel : ∀ q ∈ ((firstKeys data).filter
      ((fun q : ℚ × ℕ => decide (q.2 = maxCount data)) ∘ fun v => (v, data.count v))).map
      (fun v => (v, data.count v)), q.2 = maxCount data := by
    intro q hq
    rcases List.mem_map.1 hq with ⟨v, hv, rfl⟩
    simpa using List.of_mem_filter hv
  rw [insertionSort_eq_self hsel, tiedValues]
  rfl


theorem mem_tiedValues {data : List ℚ} {v : ℚ} :
    v ∈ tiedValues data ↔ v ∈ data ∧ data.count v = maxCount data := by
  rw [tiedValues]
  simp [List.mem_filter, mem_firstKeys]

theorem filter_eq_singleton {p : ℚ → Bool} {v : ℚ} :
    ∀ {l : List ℚ}, l.Nodup → v ∈ l → (∀ w ∈ l, p w = true ↔ w = v) →
      l.filter p = [v] := by
  intro l
  induction l with
  | nil => intro _ h; cases h
  | cons x t ih =>
    intro hnd hv hp
    rcases List.mem_cons.1 hv with rfl | hvt
    · rw [List.filter_cons_of_pos ((hp v (List.mem_cons_self _ _)).2 rfl)]
      have : t.filter p = [] := by
        apply List.filter_eq_nil_iff.2
        intro w hw hpw
        have hwv : w = v := (hp w (List.mem_cons_of_mem _ hw)).1 hpw
        exact (List.nodup_cons.1 hnd).1 (hwv ▸ hw)
      rw [this]
    · have hx : ¬ p x = true := by
        intro hpx
        have : x = v := (hp x (List.mem_cons_self _ _)).1 hpx
        exact (List.nodup_cons.1 hnd).1 (this ▸ hvt)
      rw [List.filter_cons_of_neg hx]
      exact ih (List.nodup_cons.1 hnd).2 hvt fun w hw => hp w (List.mem_cons_of_mem _ hw)

theorem tiedValues_ne_nil {data : List ℚ} (h : data ≠ []) : tiedValues data ≠ [] := by
  rcases maxCount_attained h with ⟨v, hv, hc⟩
  intro hnil
  have : v ∈ tiedValues data := mem_tiedValues.2 ⟨hv, hc⟩
  rw [hnil] at this
  cases this

theorem mode_ok_iff {data : List ℚ} {v : ℚ} :
    mode data = .ok v ↔ v ∈ data ∧ ∀ w ∈ data, w ≠ v → data.count w < data.count v := by
  by_cases hdata : data = []
  · subst hdata
    constructor
    · intro h; cases h
    · rintro ⟨h, _⟩; cases h
  · have hlen : data.length ≠ 0 := by simpa [List.length_eq_zero] using hdata
    constructor
    · intro h
      rw [mode, if_neg hlen] at h
      by_cases h1 : (_counts data).length ≠ 1
      · rw [if_pos h1] at h; cases h
      · rw [if_neg h1] at h
        push_neg at h1
        rw [counts_eq_map_tied, List.length_map] at h1
        rcases List.length_eq_one.1 h1 with ⟨u, hu⟩
        have hhead : _counts data = [(u, data.count u)] := by
          rw [counts_eq_map_tied, hu]; rfl
        rw [hhead] at h
        have huv : u = v := by simpa using h
        subst huv
        have humem : u ∈ tiedValues data := hu ▸ List.mem_cons_self u []
        have hud : u ∈ data := (mem_tiedValues.1 humem).1
        have huc : data.count u = maxCount data := (mem_tiedValues.1 humem).2
        refine ⟨hud, fun w hw hwu => ?_⟩
        have hle : data.count w ≤ maxCount data := count_le_maxCount hw
        have hne : data.count w ≠ maxCount data := by
          intro heq
          have : w ∈ tiedValues data := mem_tiedValues.2 ⟨hw, heq⟩
          rw [hu] at this
          exact hwu (by simpa using this)
        omega
    · rintro ⟨hv, hstrict⟩
      have hvmax : data.count v = maxCount data := by
        rcases maxCount_attained hdata with ⟨u, hu, huc⟩
        by_cases huv : u = v
        · exact huv ▸ huc
        · have h1 := hstrict u hu huv
          have h2 := count_le_maxCount hv
          omega
      have htied : tiedValues data = [v] := by
        rw [tiedValues]
        apply filter_eq_singleton (nodup_firstKeys data) (mem_firstKeys.2 hv)
        intro w hw
        simp only [decide_eq_true_eq]
        constructor
        · intro hwc
          by_contra hwv
          have := hstrict w (mem_firstKeys.1 hw) hwv
          omega
        · rintro rfl; exact hvmax
      have hcounts : _counts data = [(v, data.count v)] := by
        rw [counts_eq_map_tied, htied]; rfl
      rw [mode, if_neg hlen, hcounts]
      norm_num

theorem mode_tie {data : List ℚ} (h1 : 1 < (tiedValues data).length) :
    mode data = .error ("no unique mode; found " ++ toString (tiedValues data).length ++
      " equally common values") := by
  have hdata : data ≠ [] := by
    intro h
    subst h
    simp [tiedValues, firstKeys] at h1
  have hlen : data.length ≠ 0 := by simpa [List.length_eq_zero] using hdata
  have hcl : (_counts data).length = (tiedValues data).length := by
    rw [counts_eq_map_tied, List.length_map]
  rw [mode, if_neg hlen, if_pos (by omega), hcl]

theorem mode_error_iff {data : List ℚ} :
    (∃ e, mode data = Except.error e) ↔ data = [] ∨ 1 < (tiedValues data).length := by
  constructor
  · intro ⟨e, he⟩
    by_contra hcon
    push_neg at hcon
    obtain ⟨hdata, htie⟩ := hcon
    have hlen : data.length ≠ 0 := by simpa [List.length_eq_zero] using hdata
    have hne := tiedValues_ne_nil hdata
    have hpos : 0 < (tiedValues data).length := List.length_pos.2 hne
    have h1 : (tiedValues data).length = 1 := by omega
    have hcl : (_counts data).length = 1 := by
      rw [counts_eq_map_tied, List.length_map, h1]
    rw [mode, if_neg hlen, if_neg (by omega)] at he
    cases he
  · rintro (rfl | h)
    · exact ⟨_, rfl⟩
    · exact ⟨_, mode_tie h⟩

theorem mean_ok {data : List ℚ} (h : data ≠ []) :
    mean data = .ok (data.sum / (data.length : ℚ)) := by
  rw [mean, if_neg]
  simp [Nat.lt_one_iff, List.length_eq_zero, h]

theorem ss_some (data : List ℚ) (m : ℚ) :
    _ss data (some m) = .ok ((data.map fun x => (x - m) ^ 2).sum) := rfl

theorem ss_none {data : List ℚ} (h : data ≠ []) :
    _ss data none = .ok ((data.map fun x => (x - data.sum / (data.length : ℚ)) ^ 2).sum) := by
  rw [_ss, mean_ok h]
  rfl

theorem ss_ok_nonneg {data : List ℚ} {c : Option ℚ} {s : ℚ}
    (h : _ss data c = .ok s) : 0 ≤ s := by
  have hsum : ∀ m : ℚ, 0 ≤ (data.map fun x => (x - m) ^ 2).sum := by
    intro m
    apply List.sum_nonneg
    intro a ha
    rcases List.mem_map.1 ha with ⟨x, _, rfl⟩
    positivity
  rcases c with _ | m
  · by_cases hd : data = []
    · subst hd
      rw [_ss] at h
      cases h
    · rw [ss_none hd] at h
      cases h
      exact hsum _
  · rw [ss_some] at h
    cases h
    exact hsum m


theorem variance_error {data : List ℚ} (c : Option ℚ) (h : data.length < 2) :
    variance data c = .error "variance requires at least two data points" := by
  rw [variance, if_pos h]

theorem variance_some {data : List ℚ} (h : 2 ≤ data.length) (m : ℚ) :
    variance data (some m) =
      .ok ((data.map fun x => (x - m) ^ 2).sum / ((data.length - 1 : ℕ) : ℚ)) := by
  rw [variance, if_neg (by omega), ss_some]
  rfl

theorem variance_none {data : List ℚ} (h : 2 ≤ data.length) :
    variance data none =
      .ok ((data.map fun x => (x - data.sum / (data.length : ℚ)) ^ 2).sum /
        ((data.length - 1 : ℕ) : ℚ)) := by
  have hne : data ≠ [] := by
    intro h0
    rw [h0] at h
    simp at h
  rw [variance, if_neg (by omega), ss_none hne]
  rfl

theorem pvariance_error {data : List ℚ} (c : Option ℚ) (h : data.length < 1) :
    pvariance data c = .error "pvariance requires at least one data point" := by
  rw [pvariance, if_pos h]

theorem pvariance_some {data : List ℚ} (h : 1 ≤ data.length) (m : ℚ) :
    pvariance data (some m) =
      .ok ((data.map fun x => (x - m) ^ 2).sum / (data.length : ℚ)) := by
  rw [pvariance, if_neg (by omega), ss_some]
  rfl

theorem pvariance_none {data : List ℚ} (h : 1 ≤ data.length) :
    pvariance data none =
      .ok ((data.map fun x => (x - data.sum / (data.length : ℚ)) ^ 2).sum /
        (data.length : ℚ)) := by
  have hne : data ≠ [] := by
    intro h0
    rw [h0] at h
    simp at h
  rw [pvariance, if_neg (by omega), ss_none hne]
  rfl

theorem variance_ok_nonneg {data : List ℚ} {c : Option ℚ} {v : ℚ}
    (h : variance data c = .ok v) : 0 ≤ v := by
  rw [variance] at h
  by_cases hlen : data.length < 2
  · rw [if_pos hlen] at h; cases h
  · rw [if_neg hlen] at h
    cases hss : _ss data c with
    | error e => rw [hss] at h; cases h
    | ok s =>
      rw [hss] at h
      cases h
      exact div_nonneg (ss_ok_nonneg hss) (Nat.cast_nonneg _)

theorem pvariance_ok_nonneg {data : List ℚ} {c : Option ℚ} {v : ℚ}
    (h : pvariance data c = .ok v) : 0 ≤ v := by
  rw [pvariance] at h
  by_cases hlen : data.length < 1
  · rw [if_pos hlen] at h; cases h
  · rw [if_neg hlen] at h
    cases hss : _ss data c with
    | error e => rw [hss] at h; cases h
    | ok s =>
      rw [hss] at h
      cases h
      exact div_nonneg (ss_ok_nonneg hss) (Nat.cast_nonneg _)


/-- C1: for every non-empty collection `data`, `mean data` returns the sum of
the elements divided by the number of elements, and `mean` raises the
statistics precondition error when the collection is empty (count < 1). -/
theorem C1_mean_spec :
    (∀ data : List ℚ, data ≠ [] → mean data = .ok (data.sum / (data.length : ℚ))) ∧
    mean ([] : List ℚ) = .error "mean requires at least one data point" :=
  ⟨fun _ h => mean_ok h, rfl⟩

/-- Witness for C1 at the spec's example: `mean([1,2,3,4,4]) == 2.8`. -/
theorem C1_mean_witness : mean [(1 : ℚ), 2, 3, 4, 4] = .ok ((14 : ℚ) / 5) := by
  have h := C1_mean_spec.1 [(1 : ℚ), 2, 3, 4, 4] (by decide)
  norm_num at h
  exact h

/-- C2: `median data` sorts a copy of the input ascending and then: for odd
count N returns the element at 0-based index N/2; for even count N returns the
average of the elements at indices N/2−1 and N/2; it raises the statistics
precondition error on empty input. -/
theorem C2_median_spec :
    (∀ (data d : List ℚ), data.Perm d → d.Sorted (· ≤ ·) →
      (d.length % 2 = 1 → median data = .ok (d.getD (d.length / 2) 0)) ∧
      (d.length % 2 = 0 → d ≠ [] →
        median data = .ok ((d.getD (d.length / 2 - 1) 0 + d.getD (d.length / 2) 0) / 2))) ∧
    median ([] : List ℚ) = .error "no median for empty data" := by
  refine ⟨?_, rfl⟩
  intro data d hperm hsort
  have hd : List.insertionSort (· ≤ ·) data = d :=
    List.eq_of_perm_of_sorted ((List.perm_insertionSort _ data).trans hperm)
      (List.sorted_insertionSort _ data) hsort
  constructor
  · intro hodd
    have hne : d.length ≠ 0 := by omega
    simp only [median, hd]
    rw [if_neg hne, if_pos hodd]
  · intro heven hne
    have hlen : d.length ≠ 0 := by simpa [List.length_eq_zero] using hne
    have hnotodd : ¬ d.length % 2 = 1 := by omega
    simp only [median, hd]
    rw [if_neg hlen, if_neg hnotodd]

/-- Witness for C2 at the spec's examples: `median([1,3,5]) == 3` and
`median([1,3,5,7]) == 4.0`. -/
theorem C2_median_witness :
    median [(1 : ℚ), 3, 5] = .ok 3 ∧ median [(1 : ℚ), 3, 5, 7] = .ok 4 := by
  constructor
  · have h := (C2_median_spec.1 [(1 : ℚ), 3, 5] [(1 : ℚ), 3, 5] (by decide) (by decide)).1
      (by decide)
    simpa using h
  · have h := (C2_median_spec.1 [(1 : ℚ), 3, 5, 7] [(1 : ℚ), 3, 5, 7] (by decide) (by decide)).2
      (by decide) (by decide)
    norm_num at h
    exact h


/-- C3: `mode data` raises the statistics precondition error if and only if
`data` is empty or more than one value ties for the highest frequency (in the
tie case the error reports how many values tied); otherwise it returns the
unique value whose count is strictly higher than every other value's count. -/
theorem C3_mode_spec :
    (∀ data : List ℚ,
      (∃ e, mode data = Except.error e) ↔ data = [] ∨ 1 < (tiedValues data).length) ∧
    mode ([] : List ℚ) = .error "no mode for empty data" ∧
    (∀ data : List ℚ, 1 < (tiedValues data).length →
      mode data = .error ("no unique mode; found " ++ toString (tiedValues data).length ++
        " equally common values")) ∧
    (∀ (data : List ℚ) (v : ℚ),
      mode data = .ok v ↔ v ∈ data ∧ ∀ w ∈ data, w ≠ v → data.count w < data.count v) :=
  ⟨fun _ => mode_error_iff, rfl, fun _ => mode_tie, fun _ _ => mode_ok_iff⟩

/-- Witness for C3 at the spec's examples: `mode([1,1,2,3,3,3,3,4]) == 3` and
`mode([1,2,3])` fails with a three-way tie. -/
theorem C3_mode_witness :
    mode [(1 : ℚ), 1, 2, 3, 3, 3, 3, 4] = .ok 3 ∧
    (∃ e, mode [(1 : ℚ), 2, 3] = Except.error e) := by
  constructor
  · exact (C3_mode_spec.2.2.2 [(1 : ℚ), 1, 2, 3, 3, 3, 3, 4] 3).2 (by decide)
  · refine (C3_mode_spec.1 [(1 : ℚ), 2, 3]).2 (Or.inr ?_)
    norm_num [tiedValues, firstKeys, maxCount, List.count_cons]

/-- C4: `_counts data` returns the (value, count) pairs restricted to exactly
those values whose count equals the maximum count, in order of first
appearance in the input (the descending-count sort leaves only the leading
run of maximal counts, with ties broken stably), and `_counts` of an empty
input returns an empty sequence. -/
theorem C4_counts_spec :
    (∀ data : List ℚ,
      _counts data =
        ((firstKeys data).filter fun v => decide (data.count v = maxCount data)).map
          fun v => (v, data.count v)) ∧
    _counts ([] : List ℚ) = [] :=
  ⟨fun data => by rw [counts_eq_map_tied, tiedValues],
    by simp [_counts, most_common, counterItems, firstKeys, truncTable, List.insertionSort]⟩


/-- C5: for every collection with at least two elements and every supplied
central value xbar (never validated — a wrong xbar still yields a computed
result), `variance data (some xbar)` returns Σ(x − xbar)² divided by N − 1;
when xbar is omitted the mean of data is used; `variance` raises the
statistics precondition error when data has fewer than two elements. -/
theorem C5_variance_spec :
    (∀ (data : List ℚ) (xbar : ℚ), 2 ≤ data.length →
      variance data (some xbar) =
        .ok ((data.map fun x => (x - xbar) ^ 2).sum / ((data.length - 1 : ℕ) : ℚ))) ∧
    (∀ data : List ℚ, 2 ≤ data.length →
      variance data none =
        .ok ((data.map fun x => (x - data.sum / (data.length : ℚ)) ^ 2).sum /
          ((data.length - 1 : ℕ) : ℚ))) ∧
    (∀ (data : List ℚ) (c : Option ℚ), data.length < 2 →
      variance data c = .error "variance requires at least two data points") :=
  ⟨fun _ xbar h => variance_some h xbar, fun _ h => variance_none h,
    fun _ c h => variance_error c h⟩

/-- Witness for C5: a deliberately wrong central value 0 on [1, 2] still
yields a computed result (1 + 4)/1 = 5, and one data point raises. -/
theorem C5_variance_witness :
    variance [(1 : ℚ), 2] (some 0) = .ok 5 ∧
    variance [(1 : ℚ)] none = .error "variance requires at least two data points" := by
  constructor
  · have h := C5_variance_spec.1 [(1 : ℚ), 2] 0 (by decide)
    norm_num at h
    exact h
  · exact C5_variance_spec.2.2 [(1 : ℚ)] none (by decide)

/-- C6: for every non-empty collection, `pvariance data mu` returns
Σ(x − mu)² divided by N (using the mean when mu is omitted), and `pvariance`
raises the statistics precondition error if and only if data is empty — a
single data point suffices. -/
theorem C6_pvariance_spec :
    (∀ (data : List ℚ) (mu : ℚ), data ≠ [] →
      pvariance data (some mu) =
        .ok ((data.map fun x => (x - mu) ^ 2).sum / (data.length : ℚ))) ∧
    (∀ data : List ℚ, data ≠ [] →
      pvariance data none =
        .ok ((data.map fun x => (x - data.sum / (data.length : ℚ)) ^ 2).sum /
          (data.length : ℚ))) ∧
    (∀ c : Option ℚ, pvariance ([] : List ℚ) c =
      .error "pvariance requires at least one data point") := by
  refine ⟨fun data mu h => ?_, fun data h => ?_, fun c => pvariance_error c (by simp)⟩
  · exact pvariance_some (by simpa [Nat.one_le_iff_ne_zero, List.length_eq_zero] using h) mu
  · exact pvariance_none (by simpa [Nat.one_le_iff_ne_zero, List.length_eq_zero] using h)

/-- Witness for C6: a single data point suffices (`pvariance([5]) == 0`),
unlike sample variance. -/
theorem C6_pvariance_witness : pvariance [(5 : ℚ)] none = .ok 0 := by
  have h := C6_pvariance_spec.2.1 [(5 : ℚ)] (by decide)
  norm_num at h
  exact h


/-- C7: `stdev data xbar` equals the non-negative square root of
`variance data xbar` and `pstdev data mu` equals the non-negative square root
of `pvariance data mu`, and each raises exactly the same precondition errors
as the underlying variance function, propagated unchanged. -/
theorem C7_stdev_spec :
    ∀ (data : List ℚ) (c : Option ℚ),
      (∀ v : ℚ, variance data c = .ok v →
        stdev data c = .ok (Real.sqrt (v : ℝ)) ∧ 0 ≤ Real.sqrt (v : ℝ) ∧
          Real.sqrt (v : ℝ) ^ 2 = (v : ℝ)) ∧
      (∀ e, stdev data c = .error e ↔ variance data c = .error e) ∧
      (∀ v : ℚ, pvariance data c = .ok v →
        pstdev data c = .ok (Real.sqrt (v : ℝ)) ∧ 0 ≤ Real.sqrt (v : ℝ) ∧
          Real.sqrt (v : ℝ) ^ 2 = (v : ℝ)) ∧
      (∀ e, pstdev data c = .error e ↔ pvariance data c = .error e) := by
  intro data c
  refine ⟨fun v hv => ?_, fun e => ?_, fun v hv => ?_, fun e => ?_⟩
  · have hnn : (0 : ℝ) ≤ (v : ℝ) := by
      exact_mod_cast variance_ok_nonneg hv
    rw [stdev, hv]
    exact ⟨rfl, Real.sqrt_nonneg _, Real.sq_sqrt hnn⟩
  · rw [stdev]
    cases variance data c <;> simp [Except.map]
  · have hnn : (0 : ℝ) ≤ (v : ℝ) := by
      exact_mod_cast pvariance_ok_nonneg hv
    rw [pstdev, hv]
    exact ⟨rfl, Real.sqrt_nonneg _, Real.sq_sqrt hnn⟩
  · rw [pstdev]
    cases pvariance data c <;> simp [Except.map]

/-- Witness for C7: on [1, 2, 3] the sample variance is 1 and stdev is its
square root; on [] the variance error propagates unchanged through stdev. -/
theorem C7_stdev_witness :
    stdev [(1 : ℚ), 2, 3] none = .ok (Real.sqrt ((1 : ℚ) : ℝ)) ∧
    stdev ([] : List ℚ) none = .error "variance requires at least two data points" := by
  constructor
  · exact ((C7_stdev_spec [(1 : ℚ), 2, 3] none).1 1
      (by norm_num [variance, _ss, mean, Except.map])).1
  · exact ((C7_stdev_spec ([] : List ℚ) none).2.1
      "variance requires at least two data points").2 (by norm_num [variance])

/-- C8: for every dataset with more than one element, the population variance
is at most the sample variance, because the same non-negative sum of squared
deviations is divided by N rather than N − 1. -/
theorem C8_pvariance_le_variance :
    ∀ data : List ℚ, 2 ≤ data.length →
      ∃ v pv, variance data none = .ok v ∧ pvariance data none = .ok pv ∧ pv ≤ v := by
  intro data h
  have hne : data ≠ [] := by
    intro h0
    rw [h0] at h
    simp at h
  set S := (data.map fun x => (x - data.sum / (data.length : ℚ)) ^ 2).sum
  have hSnn : 0 ≤ S := by
    apply List.sum_nonneg
    intro a ha
    rcases List.mem_map.1 ha with ⟨x, _, rfl⟩
    positivity
  have hcast : ((data.length - 1 : ℕ) : ℚ) = (data.length : ℚ) - 1 := by
    have : (1 : ℕ) ≤ data.length := by omega
    exact Nat.cast_sub this
  refine ⟨S / ((data.length - 1 : ℕ) : ℚ), S / (data.length : ℚ),
    variance_none h, pvariance_none (by omega), ?_⟩
  rw [hcast]
  have h2 : (2 : ℚ) ≤ (data.length : ℚ) := by exact_mod_cast h
  gcongr
  · linarith
  · linarith

/-- Witness for C8 at a fixed dataset [1, 2, 3]. -/
theorem C8_pvariance_le_variance_witness :
    ∃ v pv, variance [(1 : ℚ), 2, 3] none = .ok v ∧
      pvariance [(1 : ℚ), 2, 3] none = .ok pv ∧ pv ≤ v :=
  C8_pvariance_le_variance [(1 : ℚ), 2, 3] (by decide)

/-- C9: whenever the respective minimum-size precondition holds (two points
for variance, one for pvariance), the returned variance and pvariance are
non-negative — for any optional central value. -/
theorem C9_nonneg :
    ∀ (data : List ℚ) (c : Option ℚ),
      (2 ≤ data.length → ∃ v, variance data c = .ok v ∧ 0 ≤ v) ∧
      (1 ≤ data.length → ∃ v, pvariance data c = .ok v ∧ 0 ≤ v) := by
  intro data c
  constructor
  · intro h
    have hne : data ≠ [] := by
      intro h0
      rw [h0] at h
      simp at h
    rcases c with _ | m
    · exact ⟨_, variance_none h, variance_ok_nonneg (variance_none h)⟩
    · exact ⟨_, variance_some h m, variance_ok_nonneg (variance_some h m)⟩
  · intro h
    rcases c with _ | m
    · exact ⟨_, pvariance_none h, pvariance_ok_nonneg (pvariance_none h)⟩
    · exact ⟨_, pvariance_some h m, pvariance_ok_nonneg (pvariance_some h m)⟩

/-- Witness for C9 on [1, 2] with a deliberately wrong central value. -/
theorem C9_nonneg_witness :
    (∃ v, variance [(1 : ℚ), 2] (some 7) = .ok v ∧ 0 ≤ v) ∧
    (∃ v, pvariance [(1 : ℚ), 2] (some 7) = .ok v ∧ 0 ≤ v) :=
  ⟨(C9_nonneg [(1 : ℚ), 2] (some 7)).1 (by decide),
   (C9_nonneg [(1 : ℚ), 2] (some 7)).2 (by decide)⟩


theorem ss_perm {data data' : List ℚ} (h : data.Perm data') (c : Option ℚ) :
    _ss data c = _ss data' c := by
  have hmean : mean data = mean data' := by
    simp only [mean, h.length_eq, h.sum_eq]
  have hfun : ∀ m : ℚ,
      (data.map fun x => (x - m) ^ 2).sum = (data'.map fun x => (x - m) ^ 2).sum :=
    fun m => (h.map fun x => (x - m) ^ 2).sum_eq
  rcases c with _ | m
  · rw [_ss, _ss, hmean]
    congr 1
    funext m
    exact hfun m
  · rw [ss_some, ss_some, hfun m]

/-- C10: for every collection `data` and every permutation `data'` of it, the
results of mean, median, variance and pvariance (and whether a precondition
error is raised) are identical — they depend only on the multiset of input
values, not their order. -/
theorem C10_perm_invariant :
    ∀ (data data' : List ℚ), data.Perm data' →
      mean data = mean data' ∧ median data = median data' ∧
      ∀ c : Option ℚ, variance data c = variance data' c ∧
        pvariance data c = pvariance data' c := by
  intro data data' h
  refine ⟨?_, ?_, fun c => ⟨?_, ?_⟩⟩
  · simp only [mean, h.length_eq, h.sum_eq]
  · have hsort : List.insertionSort (· ≤ ·) data = List.insertionSort (· ≤ ·) data' :=
      List.eq_of_perm_of_sorted
        ((List.perm_insertionSort _ data).trans (h.trans (List.perm_insertionSort _ data').symm))
        (List.sorted_insertionSort _ data) (List.sorted_insertionSort _ data')
    simp only [median, hsort]
  · simp only [variance, h.length_eq, ss_perm h c]
  · simp only [pvariance, h.length_eq, ss_perm h c]

/-- Witness for C10 on the permutation [1, 2] ~ [2, 1]. -/
theorem C10_perm_invariant_witness :
    mean [(1 : ℚ), 2] = mean [(2 : ℚ), 1] ∧
    median [(1 : ℚ), 2] = median [(2 : ℚ), 1] ∧
    ∀ c : Option ℚ, variance [(1 : ℚ), 2] c = variance [(2 : ℚ), 1] c ∧
      pvariance [(1 : ℚ), 2] c = pvariance [(2 : ℚ), 1] c :=
  C10_perm_invariant [(1 : ℚ), 2] [(2 : ℚ), 1] (by decide)

end Stats
